import Mathlib

/-!
Verification of the kimi-agent-sdk connector core: the pattern-matching
event bus (`connectors/events.py`) and the state-persistence layer
(`connectors/state.py`), shallowly embedded as pure Lean functions.

Python library primitives used by the source (`str.split(".")`,
`str.replace`, `str.startswith`, `set.add`, `set.update`) are embedded by
small structurally recursive Lean functions with the same semantics, so
that every definition evaluates by kernel reduction.
-/

namespace KimiSdk

/-! ## Embedding of the Python string primitives -/

/-- Semantics of Python `s.split(".")` on the character list: segments are
maximal runs between dots; the result is never empty and keeps empty
segments (`"".split(".") == [""]`, `"a..b".split(".") == ["a","","b"]`). -/
def splitDotAux : List Char → List Char → List String
  | [], acc => [String.mk acc.reverse]
  | c :: cs, acc =>
    if c = '.' then String.mk acc.reverse :: splitDotAux cs []
    else splitDotAux cs (c :: acc)

/-- Python `s.split(".")`. -/
def pySplitDot (s : String) : List String :=
  splitDotAux s.toList []

/-- Semantics of Python `s.startswith(p)`: `p`'s characters are an initial
run of `s`'s characters. -/
def startsAux : List Char → List Char → Bool
  | _, [] => true
  | [], _ :: _ => false
  | c :: cs, d :: ds => c == d && startsAux cs ds

/-- Python `s.startswith(p)`. -/
def pyStartsWith (s p : String) : Bool :=
  startsAux s.toList p.toList

/-! ## Event bus: `connectors/events.py` -/

/-- An event. The source carries `type`, `data`, `source`, `timestamp`,
`id`; only the type string and an abstract payload are relevant to the
dispatch logic, so the payload stands in for the remaining fields. -/
structure Event where
  type : String
  payload : Nat
deriving DecidableEq

/-- Matching `EventBus._matches_pattern(event_type, pattern)`: `"*"` alone matches
everything; otherwise split both on dots, require equal segment counts and
segmentwise equality or a `"*"` pattern segment. -/
def matchesPattern (eventType pat : String) : Bool :=
  if pat == "*" then true
  else
    let eventParts := pySplitDot eventType
    let patternParts := pySplitDot pat
    if eventParts.length != patternParts.length then false
    else (eventParts.zip patternParts).all fun ep => ep.2 == "*" || ep.2 == ep.1

/-! ### Bus state

Handlers are opaque Python callables compared by identity; they are
embedded as values of an arbitrary type `H` with decidable equality, and
their behaviour (normal return or raised exception) is supplied separately
as a function `H → Event → Except String Unit`. -/

/-- Python `set.add` on a handler set, represented as a duplicate-free
list: insert only when absent. -/
def addHandler [DecidableEq H] (hs : List H) (h : H) : List H :=
  if h ∈ hs then hs else hs ++ [h]

/-- Python `set.update hs` (used by `emit` to build the union of matching
handler sets): add every element of `hs` to the accumulator. -/
def unionHandlers [DecidableEq H] (acc hs : List H) : List H :=
  hs.foldl addHandler acc

/-- The `_handlers` registry: `defaultdict(set)` mapping a pattern string
to its handler set, as an association list in insertion order. -/
abbrev Registry (H : Type) : Type := List (String × List H)

/-- Registration `bus.on(pattern)(h)`: add `h` to the set under `pattern`,
creating the entry when the pattern is new (defaultdict behaviour). -/
def regAdd [DecidableEq H] (reg : Registry H) (pat : String) (h : H) : Registry H :=
  match reg with
  | [] => [(pat, [h])]
  | (p, hs) :: rest =>
    if p = pat then (p, addHandler hs h) :: rest
    else (p, hs) :: regAdd rest pat h

/-- Unregistration `bus.off(pattern, h)`: when the pattern key exists,
discard `h` from its set and report `true`; otherwise report `false`. -/
def regOff [DecidableEq H] (reg : Registry H) (pat : String) (h : H) : Registry H × Bool :=
  match reg with
  | [] => ([], false)
  | (p, hs) :: rest =>
    if p = pat then ((p, hs.filter fun x => x ≠ h) :: rest, true)
    else
      let r := regOff rest pat h
      ((p, hs) :: r.1, r.2)

/-- The event bus state: registered handler sets, middleware chain,
bounded history. `EventBus.__init__` sets `_max_history = 1000`. -/
structure EventBus (H : Type) where
  handlers : Registry H
  middleware : List (Event → Event)
  history : List Event
  maxHistory : Nat

/-- A fresh bus: no handlers, no middleware, empty history, capacity 1000. -/
def EventBus.init (H : Type) : EventBus H :=
  { handlers := [], middleware := [], history := [], maxHistory := 1000 }

/-- Registration as a bus transition. -/
def busOn [DecidableEq H] (bus : EventBus H) (pat : String) (h : H) : EventBus H :=
  { bus with handlers := regAdd bus.handlers pat h }

/-- Unregistration as a bus transition (result flag dropped). -/
def busOff [DecidableEq H] (bus : EventBus H) (pat : String) (h : H) : EventBus H :=
  { bus with handlers := (regOff bus.handlers pat h).1 }

/-- Middleware installation `bus.use(middleware)`: append to the chain. -/
def busUse (bus : EventBus H) (m : Event → Event) : EventBus H :=
  { bus with middleware := bus.middleware ++ [m] }

/-- History reset `bus.clear_history()`. -/
def busClearHistory (bus : EventBus H) : EventBus H :=
  { bus with history := [] }

/-- The middleware fold inside `emit`: each middleware receives the
previous one's output, starting from the emitted event. -/
def applyMiddleware (bus : EventBus H) (e : Event) : Event :=
  bus.middleware.foldl (fun ev m => m ev) e

/-- The handler-resolution loop of `emit`: the union, over every
registered pattern that matches the given type string, of its handler
set. -/
def matchedHandlers [DecidableEq H] (reg : Registry H) (t : String) : List H :=
  reg.foldl (fun acc phs => if matchesPattern t phs.1 then unionHandlers acc phs.2 else acc) []

/-- Outcome of one handler invocation: `_call_handler` either lets the
handler complete or catches its exception and logs the message. -/
inductive HandlerOutcome where
  | completed
  | loggedError (msg : String)
deriving DecidableEq

/-- Invocation `EventBus._call_handler(handler, event)`: run the handler, catching
any exception and turning it into a logged error; never re-raises. -/
def callHandler (beh : H → Event → Except String Unit) (h : H) (e : Event) :
    HandlerOutcome :=
  match beh h e with
  | .ok _ => .completed
  | .error msg => .loggedError msg

/-- The history append at the top of `emit`: push the event, then drop the
oldest entry when the configured maximum is exceeded (`pop(0)`). -/
def pushHistory (hist : List Event) (maxH : Nat) (e : Event) : List Event :=
  let h1 := hist ++ [e]
  if maxH < h1.length then h1.drop 1 else h1

/-- Emission `bus.emit(event)`: append to history (with eviction), run the
middleware chain, resolve the union of handler sets whose pattern matches
the ORIGINAL event's type, and invoke each matched handler once on the
middleware-processed event through `_call_handler`. Returns the new bus
and the invocation record (handler, outcome); an empty record is the
source's early return when no handler matches. -/
def emit [DecidableEq H] (beh : H → Event → Except String Unit)
    (bus : EventBus H) (e : Event) : EventBus H × List (H × HandlerOutcome) :=
  let processed := applyMiddleware bus e
  let hs := matchedHandlers bus.handlers e.type
  ({ bus with history := pushHistory bus.history bus.maxHistory e },
   hs.map fun h => (h, callHandler beh h processed))

/-- A bus operation, for stating invariants over arbitrary operation
sequences (the read-only operations `get_history` and `handler_count` do
not change the state and are omitted). -/
inductive BusOp (H : Type) where
  | opOn (pat : String) (h : H)
  | opOff (pat : String) (h : H)
  | opUse (m : Event → Event)
  | opEmit (beh : H → Event → Except String Unit) (e : Event)
  | opClear

/-- Apply one bus operation. -/
def applyOp [DecidableEq H] (bus : EventBus H) : BusOp H → EventBus H
  | .opOn pat h => busOn bus pat h
  | .opOff pat h => busOff bus pat h
  | .opUse m => busUse bus m
  | .opEmit beh e => (emit beh bus e).1
  | .opClear => busClearHistory bus

/-- Apply a sequence of bus operations starting from a fresh bus. -/
def applyOps [DecidableEq H] (bus : EventBus H) (ops : List (BusOp H)) : EventBus H :=
  ops.foldl applyOp bus

/-! ## State store: `connectors/state.py`

The backing directory of `FileStateBackend` is embedded as an association
list from sanitized key to file content. Every file the backend creates is
`<safe_key>.json` where `safe_key` is the key with path separators
substituted; `glob("*.json")` matches every such file (dotfiles included),
and `Path.stem` of `<safe_key>.json` is `safe_key` itself except for the
empty sanitized key, whose file `.json` is a dotfile with no suffix and is
therefore its own stem — `stemOfJsonFile` below reproduces this rule.
Values are an arbitrary type `V`, standing for arbitrary JSON-serializable
payloads. -/

/-- A stored state record, as serialized into one JSON file:
`{"key": ..., "value": ..., "version": ..., "metadata": ...}`. Versions
are Python ints, metadata is a string-keyed mapping. -/
structure StateRec (V : Type) where
  key : String
  value : V
  version : Int
  metadata : List (String × Nat)
deriving DecidableEq

/-- Content of one backing file: either JSON that decodes to a record with
the mandatory fields present, or undecodable/incomplete JSON (the
`json.JSONDecodeError` / `KeyError` cases of `FileStateBackend.get`). -/
inductive FileContent (V : Type) where
  | valid (r : StateRec V)
  | corrupt
deriving DecidableEq

/-- The backing directory: stem ↦ file content. -/
abbrev Fs (V : Type) : Type := List (String × FileContent V)

/-- The key sanitisation of `FileStateBackend._file_path`:
`key.replace("/", "_").replace("\\", "_")`. The two sequential
single-character replacements equal one characterwise map because the
replacement character is neither pattern. -/
def sanitizeKey (k : String) : String :=
  String.mk (k.toList.map fun c => if c == '/' || c == '\\' then '_' else c)

/-- Look up the file stored for a stem. -/
def lookupFile (fs : Fs V) (fn : String) : Option (FileContent V) :=
  match fs with
  | [] => none
  | (f, c) :: rest => if f = fn then some c else lookupFile rest fn

/-- Write `file_path.write_text(...)`: create or overwrite the file at a stem. -/
def writeFile (fs : Fs V) (fn : String) (c : FileContent V) : Fs V :=
  match fs with
  | [] => [(fn, c)]
  | (f, c0) :: rest =>
    if f = fn then (f, c) :: rest else (f, c0) :: writeFile rest fn c

/-- Unlink `file_path.unlink()`: remove the file at a stem. -/
def removeFile (fs : Fs V) (fn : String) : Fs V :=
  match fs with
  | [] => []
  | (f, c) :: rest =>
    if f = fn then rest else (f, c) :: removeFile rest fn

/-- Read `FileStateBackend.get(key)`: absent file, undecodable JSON and
incomplete JSON all report the key absent; otherwise the decoded record
(whose `key` field is the one stored in the file) is returned. -/
def fsGet (fs : Fs V) (key : String) : Option (StateRec V) :=
  match lookupFile fs (sanitizeKey key) with
  | none => none
  | some .corrupt => none
  | some (.valid r) => some r

/-- Write `FileStateBackend.set(state)`: when a record is currently readable for
the key and its version is not exactly `state.version - 1`, reject the
write; otherwise (including when no record is readable) serialize the
record to the key's file and report success. -/
def fsSet (fs : Fs V) (s : StateRec V) : Fs V × Bool :=
  match fsGet fs s.key with
  | some existing =>
    if existing.version ≠ s.version - 1 then (fs, false)
    else (writeFile fs (sanitizeKey s.key) (.valid s), true)
  | none => (writeFile fs (sanitizeKey s.key) (.valid s), true)

/-- Deletion `FileStateBackend.delete(key)`: reports whether the key's file existed
(readable or not) and unlinks it. -/
def fsDelete (fs : Fs V) (key : String) : Fs V × Bool :=
  match lookupFile fs (sanitizeKey key) with
  | some _ => (removeFile fs (sanitizeKey key), true)
  | none => (fs, false)

/-- Semantics of `Path.stem` on the backing file `<safeKey>.json`: the
name minus its last suffix. For a non-empty sanitized key the last dot is
the one before `json`, so the stem is the sanitized key itself; for the
empty sanitized key the file is the dotfile `.json`, which has no suffix
and is its own stem. -/
def stemOfJsonFile (safeKey : String) : String :=
  if safeKey = "" then ".json" else safeKey

/-- Listing `FileStateBackend.list_keys(prefix)`: the `Path.stem` of every
`.json` file in the directory, kept when it starts with the given
string. -/
def fsListKeys (fs : Fs V) (pre : String) : List String :=
  ((fs.map Prod.fst).map stemOfJsonFile).filter fun k => pyStartsWith k pre

/-- Manager write `StateManager.set(key, value, metadata)`: read the current version
(absent ↦ 0), write `version + 1` with the supplied metadata or the empty
mapping; the backend's success flag is discarded by the source. -/
def mgrSet (fs : Fs V) (key : String) (value : V)
    (metadata : Option (List (String × Nat))) : Fs V :=
  let existing := fsGet fs key
  let version : Int := match existing with
    | some e => e.version + 1
    | none => 1
  (fsSet fs ⟨key, value, version, metadata.getD []⟩).1

/-- Manager update `StateManager.update(key, value, version)`: when a version is
supplied, fail unless a record exists with exactly that version; otherwise
write `existing.version + 1` (or 1) carrying the existing metadata
forward, through the backend's `set`. -/
def mgrUpdate (fs : Fs V) (key : String) (value : V) (version : Option Int) :
    Fs V × Bool :=
  let existing := fsGet fs key
  let ok : Bool := match version with
    | none => true
    | some v => match existing with
      | none => false
      | some e => e.version == v
  if !ok then (fs, false)
  else
    let newVersion : Int := match existing with
      | some e => e.version + 1
      | none => 1
    let md := match existing with
      | some e => e.metadata
      | none => []
    fsSet fs ⟨key, value, newVersion, md⟩

/-- A sequence of `StateManager.set` writes starting from an empty
directory, for stating `list` properties over arbitrary key collections. -/
def applyWrites (ws : List (String × V)) : Fs V :=
  ws.foldl (fun fs kv => mgrSet fs kv.1 kv.2 none) []

/-! ### Concrete fixtures used by witnesses and counterexamples -/

/-- A bus with one handler registered under pattern `"b"` and one
middleware that rewrites every event's type to `"b"`. -/
def c3bus : EventBus Nat :=
  { handlers := regAdd [] "b" 7,
    middleware := [fun ev => { ev with type := "b" }],
    history := [], maxHistory := 1000 }

/-- A bus with two handlers registered under pattern `"t"`. -/
def w5bus : EventBus Nat := busOn (busOn (EventBus.init Nat) "t" 0) "t" 1

/-- Handler behaviour where handler 0 raises and every other handler
returns normally. -/
def w5beh : Nat → Event → Except String Unit :=
  fun h _ => if h == 0 then Except.error "boom" else Except.ok ()

end KimiSdk

namespace KimiSdk

/-! ## Theorems

Helper lemmas first, then one theorem per specification claim (with a
closed witness or counterexample where applicable). -/

/-! ### Pattern matching (claim C1) -/

/-- Segmentwise reading of the `all`-over-`zip` loop of
`_matches_pattern`, for lists of equal length. -/
theorem segAll_iff : ∀ (l1 l2 : List String), l1.length = l2.length →
    (((l1.zip l2).all fun ep => ep.2 == "*" || ep.2 == ep.1) = true ↔
      ∀ (i : Nat) (h1 : i < l1.length) (h2 : i < l2.length),
        l2[i] = "*" ∨ l2[i] = l1[i])
  | [], [], _ => by simp
  | [], _ :: _, h => by simp at h
  | _ :: _, [], h => by simp at h
  | a :: as, b :: bs, h => by
    have ih := segAll_iff as bs (by simpa using h)
    simp only [List.zip_cons_cons, List.all_cons, Bool.and_eq_true, ih]
    constructor
    · rintro ⟨hb, hrest⟩ i h1 h2
      cases i with
      | zero => simpa using hb
      | succ j =>
        simpa using hrest j (Nat.lt_of_succ_lt_succ h1) (Nat.lt_of_succ_lt_succ h2)
    · intro hall
      refine ⟨?_, fun j hj1 hj2 => ?_⟩
      · simpa using hall 0 (Nat.succ_pos _) (Nat.succ_pos _)
      · simpa using hall (j + 1) (Nat.succ_lt_succ hj1) (Nat.succ_lt_succ hj2)

/-- C1: the bus's pattern match returns true iff the pattern is exactly
`"*"`, or the pattern and the event type have the same number of
dot-separated segments and at every position the pattern segment is `"*"`
or textually equal to the type's segment; in particular it returns false
whenever the segment counts differ (and the pattern is not `"*"`), so
there is no prefix, substring, or multi-level wildcard matching. -/
theorem matchesPattern_iff (p t : String) :
    matchesPattern t p = true ↔
      p = "*" ∨
      ((pySplitDot p).length = (pySplitDot t).length ∧
        ∀ (i : Nat) (hp : i < (pySplitDot p).length) (ht : i < (pySplitDot t).length),
          (pySplitDot p)[i] = "*" ∨ (pySplitDot p)[i] = (pySplitDot t)[i]) := by
  by_cases hstar : p = "*"
  · subst hstar; simp [matchesPattern]
  · unfold matchesPattern
    rw [if_neg (by simpa using hstar)]
    by_cases hlen : (pySplitDot t).length = (pySplitDot p).length
    · rw [if_neg (by simpa using hlen)]
      rw [segAll_iff _ _ hlen]
      constructor
      · intro hall
        exact Or.inr ⟨hlen.symm, fun i hp ht => hall i ht hp⟩
      · rintro (h | ⟨_, hall⟩)
        · exact (hstar h).elim
        · exact fun i ht hp => hall i hp ht
    · rw [if_pos (by simpa [bne_iff_ne] using hlen)]
      constructor
      · intro h; exact (Bool.false_ne_true h).elim
      · rintro (h | ⟨hl, _⟩)
        · exact (hstar h).elim
        · exact (hlen hl.symm).elim

/-- Witness for C1: the characterization applied to a concrete match. -/
theorem matchesPattern_iff_witness :
    "github.pr.*" = "*" ∨
      ((pySplitDot "github.pr.*").length = (pySplitDot "github.pr.created").length ∧
        ∀ (i : Nat) (hp : i < (pySplitDot "github.pr.*").length)
          (ht : i < (pySplitDot "github.pr.created").length),
          (pySplitDot "github.pr.*")[i] = "*" ∨
          (pySplitDot "github.pr.*")[i] = (pySplitDot "github.pr.created")[i]) :=
  (matchesPattern_iff "github.pr.*" "github.pr.created").mp (by decide)

/-! ### Handler-set helper lemmas -/

theorem mem_addHandler [DecidableEq H] (hs : List H) (h x : H) :
    x ∈ addHandler hs h ↔ x ∈ hs ∨ x = h := by
  unfold addHandler
  split
  · rename_i hmem
    constructor
    · exact Or.inl
    · rintro (hx | rfl)
      · exact hx
      · exact hmem
  · simp

theorem nodup_addHandler [DecidableEq H] (hs : List H) (h : H) (hn : hs.Nodup) :
    (addHandler hs h).Nodup := by
  unfold addHandler
  split
  · exact hn
  · rename_i hmem
    simpa [List.nodup_append] using ⟨hn, fun hx => hmem hx⟩

theorem mem_unionHandlers [DecidableEq H] :
    ∀ (hs acc : List H) (x : H), x ∈ unionHandlers acc hs ↔ x ∈ acc ∨ x ∈ hs
  | [], acc, x => by simp [unionHandlers]
  | h :: hs, acc, x => by
    simp only [unionHandlers, List.foldl_cons]
    rw [show (hs.foldl addHandler (addHandler acc h)) = unionHandlers (addHandler acc h) hs from rfl]
    rw [mem_unionHandlers hs (addHandler acc h) x, mem_addHandler]
    simp only [List.mem_cons]
    tauto

theorem nodup_unionHandlers [DecidableEq H] :
    ∀ (hs acc : List H), acc.Nodup → (unionHandlers acc hs).Nodup
  | [], _, hn => hn
  | h :: hs, acc, hn =>
    nodup_unionHandlers hs (addHandler acc h) (nodup_addHandler acc h hn)

theorem mem_foldl_matched [DecidableEq H] :
    ∀ (reg : Registry H) (t : String) (acc : List H) (x : H),
      (x ∈ reg.foldl
          (fun acc phs => if matchesPattern t phs.1 then unionHandlers acc phs.2 else acc) acc ↔
        x ∈ acc ∨ ∃ p hs, (p, hs) ∈ reg ∧ matchesPattern t p = true ∧ x ∈ hs)
  | [], t, acc, x => by simp
  | (p, hs) :: reg, t, acc, x => by
    simp only [List.foldl_cons]
    rw [mem_foldl_matched reg t _ x]
    by_cases hm : matchesPattern t p = true
    · simp only [hm, if_true, mem_unionHandlers]
      constructor
      · rintro ((hx | hx) | ⟨q, qs, hq, hmq, hx⟩)
        · exact Or.inl hx
        · exact Or.inr ⟨p, hs, List.mem_cons_self _ _, hm, hx⟩
        · exact Or.inr ⟨q, qs, List.mem_cons_of_mem _ hq, hmq, hx⟩
      · rintro (hx | ⟨q, qs, hq, hmq, hx⟩)
        · exact Or.inl (Or.inl hx)
        · rcases List.mem_cons.mp hq with heq | hq
          · cases heq
            exact Or.inl (Or.inr hx)
          · exact Or.inr ⟨q, qs, hq, hmq, hx⟩
    · simp only [hm, if_false]
      constructor
      · rintro (hx | ⟨q, qs, hq, hmq, hx⟩)
        · exact Or.inl hx
        · exact Or.inr ⟨q, qs, List.mem_cons_of_mem _ hq, hmq, hx⟩
      · rintro (hx | ⟨q, qs, hq, hmq, hx⟩)
        · exact Or.inl hx
        · rcases List.mem_cons.mp hq with heq | hq
          · injection heq with h1 h2
            subst h1; subst h2
            exact (hm hmq).elim
          · exact Or.inr ⟨q, qs, hq, hmq, hx⟩

theorem mem_matchedHandlers [DecidableEq H] (reg : Registry H) (t : String) (x : H) :
    x ∈ matchedHandlers reg t ↔
      ∃ p hs, (p, hs) ∈ reg ∧ matchesPattern t p = true ∧ x ∈ hs := by
  unfold matchedHandlers
  rw [mem_foldl_matched reg t [] x]
  simp

theorem nodup_matchedHandlers [DecidableEq H] (reg : Registry H) (t : String) :
    (matchedHandlers reg t).Nodup := by
  unfold matchedHandlers
  have hgen : ∀ (r : Registry H) (acc : List H), acc.Nodup →
      (r.foldl (fun acc phs =>
        if matchesPattern t phs.1 then unionHandlers acc phs.2 else acc) acc).Nodup := by
    intro r
    induction r with
    | nil => exact fun _ hn => hn
    | cons phs r ih =>
      intro acc hn
      simp only [List.foldl_cons]
      split
      · exact ih _ (nodup_unionHandlers _ _ hn)
      · exact ih _ hn
  exact hgen reg [] List.nodup_nil

theorem emit_fst [DecidableEq H] (beh : H → Event → Except String Unit)
    (bus : EventBus H) (e : Event) :
    (emit beh bus e).2.map Prod.fst = matchedHandlers bus.handlers e.type := by
  show ((matchedHandlers bus.handlers e.type).map
    fun h => (h, callHandler beh h (applyMiddleware bus e))).map Prod.fst = _
  rw [List.map_map]
  exact List.map_id _

/-! ### Idempotent registration (claim C8) -/

/-- Adding a handler that is already present leaves the set unchanged. -/
theorem addHandler_idem [DecidableEq H] (hs : List H) (h : H) :
    addHandler (addHandler hs h) h = addHandler hs h := by
  have hmem : h ∈ addHandler hs h := (mem_addHandler hs h h).mpr (Or.inr rfl)
  show (if h ∈ addHandler hs h then addHandler hs h
    else addHandler hs h ++ [h]) = addHandler hs h
  rw [if_pos hmem]

/-- Registering twice produces the same registry as registering once. -/
theorem regAdd_twice [DecidableEq H] : ∀ (reg : Registry H) (pat : String) (h : H),
    regAdd (regAdd reg pat h) pat h = regAdd reg pat h
  | [], pat, h => by simp [regAdd, addHandler]
  | (p, hs) :: rest, pat, h => by
    by_cases hp : p = pat
    · simp [regAdd, hp, addHandler_idem]
    · simp [regAdd, hp, regAdd_twice rest pat h]

/-- After registration, the registry has an entry for the pattern whose
set holds the handler. -/
theorem exists_entry_regAdd [DecidableEq H] : ∀ (reg : Registry H) (pat : String) (h : H),
    ∃ hs, (pat, hs) ∈ regAdd reg pat h ∧ h ∈ hs
  | [], pat, h => ⟨[h], by simp [regAdd], by simp⟩
  | (p, hs0) :: rest, pat, h => by
    by_cases hp : p = pat
    · subst hp
      exact ⟨addHandler hs0 h, by simp [regAdd],
        (mem_addHandler _ _ _).mpr (Or.inr rfl)⟩
    · obtain ⟨hs, hmem, hh⟩ := exists_entry_regAdd rest pat h
      exact ⟨hs, by simp [regAdd, hp, hmem], hh⟩

/-- C8: registering handler `h` under pattern `pat` twice is a no-op equal
to registering it once, and a single emission whose type matches `pat`
invokes `h` exactly one time. -/
theorem on_register_twice_single_invocation [DecidableEq H] (bus : EventBus H)
    (pat : String) (h : H) (beh : H → Event → Except String Unit) (e : Event)
    (hm : matchesPattern e.type pat = true) :
    busOn (busOn bus pat h) pat h = busOn bus pat h ∧
    ((emit beh (busOn bus pat h) e).2.map Prod.fst).count h = 1 := by
  constructor
  · simp [busOn, regAdd_twice]
  · rw [emit_fst]
    obtain ⟨hs, hmem, hh⟩ := exists_entry_regAdd bus.handlers pat h
    have hmemM : h ∈ matchedHandlers (busOn bus pat h).handlers e.type :=
      (mem_matchedHandlers _ _ _).mpr ⟨pat, hs, hmem, hm, hh⟩
    exact List.count_eq_one_of_mem (nodup_matchedHandlers _ _) hmemM

/-- Witness for C8 at a concrete bus, pattern and emission. -/
theorem on_register_twice_single_invocation_witness :
    busOn (busOn (EventBus.init Nat) "a.*" 5) "a.*" 5 =
      busOn (EventBus.init Nat) "a.*" 5 ∧
    ((emit (fun _ _ => Except.ok ()) (busOn (EventBus.init Nat) "a.*" 5)
      ⟨"a.b", 0⟩).2.map Prod.fst).count 5 = 1 :=
  on_register_twice_single_invocation (EventBus.init Nat) "a.*" 5
    (fun _ _ => Except.ok ()) ⟨"a.b", 0⟩ (by decide)

/-! ### Handler failure isolation (claim C5) -/

/-- C5: when at least two distinct handlers are dispatched and one of them
raises, the raising handler's exception is caught and logged (it shows up
as a logged outcome, never an exception escaping `emit`), every other
matched handler still runs with its own outcome, and the full list of
invoked handlers is exactly the matched set, unaffected by the failure. -/
theorem handler_failure_isolated [DecidableEq H] (beh : H → Event → Except String Unit)
    (bus : EventBus H) (e : Event) (h1 h2 : H) (msg : String)
    (h1m : h1 ∈ matchedHandlers bus.handlers e.type)
    (h2m : h2 ∈ matchedHandlers bus.handlers e.type)
    (hne : h1 ≠ h2)
    (hfail : beh h1 (applyMiddleware bus e) = Except.error msg) :
    (h1, HandlerOutcome.loggedError msg) ∈ (emit beh bus e).2 ∧
    (h2, callHandler beh h2 (applyMiddleware bus e)) ∈ (emit beh bus e).2 ∧
    (emit beh bus e).2.map Prod.fst = matchedHandlers bus.handlers e.type := by
  refine ⟨?_, ?_, emit_fst beh bus e⟩
  · have hc : callHandler beh h1 (applyMiddleware bus e) = .loggedError msg := by
      simp [callHandler, hfail]
    have hmem : (h1, callHandler beh h1 (applyMiddleware bus e)) ∈
        (matchedHandlers bus.handlers e.type).map
          (fun h => (h, callHandler beh h (applyMiddleware bus e))) :=
      List.mem_map_of_mem _ h1m
    rw [hc] at hmem
    exact hmem
  · exact List.mem_map_of_mem _ h2m

/-- Witness for C5: two handlers on one pattern, the first one raising. -/
theorem handler_failure_isolated_witness :
    ((0 : Nat), HandlerOutcome.loggedError "boom") ∈ (emit w5beh w5bus ⟨"t", 0⟩).2 ∧
    ((1 : Nat), callHandler w5beh 1 (applyMiddleware w5bus ⟨"t", 0⟩)) ∈
      (emit w5beh w5bus ⟨"t", 0⟩).2 ∧
    (emit w5beh w5bus ⟨"t", 0⟩).2.map Prod.fst =
      matchedHandlers w5bus.handlers (Event.mk "t" 0).type :=
  handler_failure_isolated w5beh w5bus ⟨"t", 0⟩ 0 1 "boom"
    (by decide) (by decide) (by decide) rfl

/-! ### Dispatch matches the pre-middleware type (claim C3) -/

/-- Counterexample to C3: with a non-empty middleware chain that rewrites
the event type from `"a"` to `"b"` and a handler registered under `"b"`,
the union of handler sets matching the transformed type is `[7]`, yet
`emit` invokes no handler at all — matching is performed against the
originally emitted event's type, not the middleware output. -/
theorem emit_transformed_matching_cex :
    c3bus.middleware.length = 1 ∧
    (applyMiddleware c3bus ⟨"a", 0⟩).type = "b" ∧
    matchedHandlers c3bus.handlers (applyMiddleware c3bus ⟨"a", 0⟩).type = [7] ∧
    (emit (fun _ _ => Except.ok ()) c3bus ⟨"a", 0⟩).2 = [] := by
  refine ⟨rfl, rfl, by decide, by decide⟩

/-- C3 amended: for every emission with a non-empty middleware chain, the
handlers invoked by `emit` are exactly the union, over registered patterns
matching the ORIGINAL event's type, of their handler sets; each of them
receives the middleware-transformed event. -/
theorem emit_matches_original_type [DecidableEq H] (beh : H → Event → Except String Unit)
    (bus : EventBus H) (e : Event) (hmw : bus.middleware ≠ []) :
    (emit beh bus e).2 =
      (matchedHandlers bus.handlers e.type).map
        fun h => (h, callHandler beh h (applyMiddleware bus e)) := rfl

/-- Witness for the amended C3 on the concrete middleware bus. -/
theorem emit_matches_original_type_witness :
    (emit (fun _ _ => Except.ok ()) c3bus ⟨"a", 0⟩).2 =
      (matchedHandlers c3bus.handlers (Event.mk "a" 0).type).map
        (fun h => (h, callHandler (fun _ _ => Except.ok ()) h
          (applyMiddleware c3bus ⟨"a", 0⟩))) :=
  emit_matches_original_type (fun _ _ => Except.ok ()) c3bus ⟨"a", 0⟩
    (by simp [c3bus])

/-! ### Bounded FIFO history (claim C7) -/

/-- The history append of `emit` never grows the buffer beyond the
configured maximum. -/
theorem pushHistory_length_le (hist : List Event) (maxH : Nat) (e : Event)
    (hle : hist.length ≤ maxH) : (pushHistory hist maxH e).length ≤ maxH := by
  unfold pushHistory
  by_cases hc : maxH < (hist ++ [e]).length
  · rw [if_pos hc]
    simp only [List.length_drop, List.length_append, List.length_cons,
      List.length_nil] at *
    omega
  · rw [if_neg hc]
    exact Nat.le_of_not_lt hc

/-- Closed form of the history append below capacity: append the event,
and when that would exceed the maximum, drop the oldest entry. -/
theorem pushHistory_eq (hist : List Event) (maxH : Nat) (e : Event)
    (hle : hist.length ≤ maxH) (hpos : 0 < maxH) :
    pushHistory hist maxH e =
      if maxH < hist.length + 1 then hist.drop 1 ++ [e] else hist ++ [e] := by
  show (if maxH < (hist ++ [e]).length then (hist ++ [e]).drop 1
    else hist ++ [e]) = _
  have hlen : (hist ++ [e]).length = hist.length + 1 := by simp
  rw [hlen]
  by_cases hc : maxH < hist.length + 1
  · rw [if_pos hc, if_pos hc]
    exact List.drop_append_of_le_length (by omega)
  · rw [if_neg hc, if_neg hc]

/-- No bus operation changes the configured history capacity. -/
theorem applyOp_maxHistory [DecidableEq H] (bus : EventBus H) (op : BusOp H) :
    (applyOp bus op).maxHistory = bus.maxHistory := by
  cases op <;> rfl

/-- Every bus operation preserves the history bound. -/
theorem applyOp_history_le [DecidableEq H] (bus : EventBus H) (op : BusOp H)
    (hle : bus.history.length ≤ bus.maxHistory) :
    (applyOp bus op).history.length ≤ (applyOp bus op).maxHistory := by
  cases op with
  | opOn pat h => exact hle
  | opOff pat h => exact hle
  | opUse m => exact hle
  | opClear => exact Nat.zero_le _
  | opEmit beh e => exact pushHistory_length_le bus.history bus.maxHistory e hle

/-- The history bound is an invariant of arbitrary operation sequences. -/
theorem applyOps_inv [DecidableEq H] : ∀ (ops : List (BusOp H)) (bus : EventBus H),
    bus.history.length ≤ bus.maxHistory →
    ((applyOps bus ops).maxHistory = bus.maxHistory ∧
      (applyOps bus ops).history.length ≤ (applyOps bus ops).maxHistory)
  | [], _, hle => ⟨rfl, hle⟩
  | op :: ops, bus, hle => by
    have h2 := applyOp_history_le bus op hle
    obtain ⟨ha, hb⟩ := applyOps_inv ops (applyOp bus op) h2
    exact ⟨ha.trans (applyOp_maxHistory bus op), hb⟩

/-- C7: after every sequence of bus operations starting from a fresh bus,
the configured maximum is the default 1000, the history holds at most 1000
events, and one further emission appends the event in insertion order,
evicting exactly the oldest entry when the append would exceed capacity. -/
theorem history_bounded_fifo [DecidableEq H] (ops : List (BusOp H)) :
    (applyOps (EventBus.init H) ops).maxHistory = 1000 ∧
    (applyOps (EventBus.init H) ops).history.length ≤ 1000 ∧
    ∀ (beh : H → Event → Except String Unit) (e : Event),
      (emit beh (applyOps (EventBus.init H) ops) e).1.history =
        if 1000 < (applyOps (EventBus.init H) ops).history.length + 1
        then (applyOps (EventBus.init H) ops).history.drop 1 ++ [e]
        else (applyOps (EventBus.init H) ops).history ++ [e] := by
  obtain ⟨hmax, hinv⟩ := applyOps_inv ops (EventBus.init H) (by simp [EventBus.init])
  have hmax1000 : (applyOps (EventBus.init H) ops).maxHistory = 1000 := hmax
  have hle : (applyOps (EventBus.init H) ops).history.length ≤ 1000 := by
    rw [← hmax1000]; exact hinv
  refine ⟨hmax1000, hle, fun beh e => ?_⟩
  show pushHistory (applyOps (EventBus.init H) ops).history
    (applyOps (EventBus.init H) ops).maxHistory e = _
  rw [hmax1000]
  exact pushHistory_eq _ 1000 e hle (by omega)

/-! ### State store helper lemmas -/

/-- Looking up a freshly written stem yields the written content. -/
theorem lookupFile_writeFile_self [DecidableEq V] :
    ∀ (fs : Fs V) (fn : String) (c : FileContent V),
      lookupFile (writeFile fs fn c) fn = some c
  | [], fn, c => by simp [writeFile, lookupFile]
  | (f, c0) :: rest, fn, c => by
    by_cases hf : f = fn
    · simp [writeFile, lookupFile, hf]
    · simp [writeFile, lookupFile, hf, lookupFile_writeFile_self rest fn c]

/-- Reading a key right after its record was written returns the record. -/
theorem fsGet_writeFile_self [DecidableEq V] (fs : Fs V) (key : String) (r : StateRec V) :
    fsGet (writeFile fs (sanitizeKey key) (.valid r)) key = some r := by
  unfold fsGet
  rw [lookupFile_writeFile_self]

/-- The manager-level `set` always reaches the file write, because it
supplies exactly the version the backend's check expects. -/
theorem mgrSet_eq_writeFile [DecidableEq V] (fs : Fs V) (key : String) (v : V)
    (md : Option (List (String × Nat))) :
    mgrSet fs key v md =
      writeFile fs (sanitizeKey key)
        (.valid ⟨key, v,
          (match fsGet fs key with
            | some e => e.version + 1
            | none => 1),
          md.getD []⟩) := by
  unfold mgrSet fsSet
  cases hg : fsGet fs key with
  | none => simp [hg]
  | some e => simp [hg]

/-- Stems present after a file write: the written stem plus the previous
ones. -/
theorem mem_fst_writeFile [DecidableEq V] :
    ∀ (fs : Fs V) (fn k : String) (c : FileContent V),
      (k ∈ (writeFile fs fn c).map Prod.fst ↔ k = fn ∨ k ∈ fs.map Prod.fst)
  | [], fn, k, c => by simp [writeFile]
  | (f, c0) :: rest, fn, k, c => by
    by_cases hf : f = fn
    · subst hf
      simp [writeFile]
    · simp only [writeFile, hf, if_false, List.map_cons, List.mem_cons,
        mem_fst_writeFile rest fn k c]
      tauto

/-! ### Backend version check on first writes (claim C2) -/

/-- Counterexample to C2: on an empty directory (stored version treated as
0 by the claim) a first write declaring version 5 is accepted, although
5 is not 0 + 1 — the backend skips the version check entirely when no
record is readable. -/
theorem fsSet_first_write_accepted :
    fsGet ([] : Fs Nat) "k" = none ∧
    (fsSet ([] : Fs Nat) ⟨"k", 0, 5, []⟩).2 = true ∧
    (5 : Int) ≠ 0 + 1 := by decide

/-- C2 amended: the backend's `set` returns failure exactly when a record
is currently readable for the key and its version is not the declared
version minus one; when no record is readable — including every first
write — the write succeeds whatever version it declares. -/
theorem fsSet_version_check [DecidableEq V] (fs : Fs V) (s : StateRec V) :
    (fsSet fs s).2 = false ↔
      ∃ e, fsGet fs s.key = some e ∧ e.version ≠ s.version - 1 := by
  unfold fsSet
  cases hg : fsGet fs s.key with
  | none => simp
  | some e =>
    by_cases hv : e.version = s.version - 1
    · simp [hv]
    · simp [hv]

/-! ### Listing returns sanitized keys (claim C4) -/

/-- Counterexample to C4: after storing key `"a/b"`, listing with the
empty string returns `["a_b"]` (the sanitized stem, not the key the caller
supplied), and listing with the key's own true prefix `"a/"` returns
nothing. -/
theorem listKeys_sanitized_cex :
    fsListKeys (mgrSet ([] : Fs Nat) "a/b" 0 none) "" = ["a_b"] ∧
    "a_b" ≠ "a/b" ∧
    fsListKeys (mgrSet ([] : Fs Nat) "a/b" 0 none) "a/" = [] := by decide

/-- Stems present after a sequence of manager writes are exactly the
sanitized written keys plus the initial stems. -/
theorem mem_fst_writes [DecidableEq V] :
    ∀ (ws : List (String × V)) (fs : Fs V) (k : String),
      (k ∈ (ws.foldl (fun fs kv => mgrSet fs kv.1 kv.2 none) fs).map Prod.fst ↔
        k ∈ fs.map Prod.fst ∨ ∃ w ∈ ws, sanitizeKey w.1 = k)
  | [], fs, k => by simp
  | (key, v) :: ws, fs, k => by
    simp only [List.foldl_cons]
    rw [mem_fst_writes ws _ k, mgrSet_eq_writeFile, mem_fst_writeFile]
    simp only [List.exists_mem_cons_iff]
    constructor
    · rintro ((hk | hk) | hw)
      · exact Or.inr (Or.inl hk.symm)
      · exact Or.inl hk
      · exact Or.inr (Or.inr hw)
    · rintro (hk | hs | hw)
      · exact Or.inl (Or.inr hk)
      · exact Or.inl (Or.inl hs.symm)
      · exact Or.inr hw

/-- C4 amended: after any collection of writes, `list(prefix)` contains a
string iff it is the `Path.stem` of some written key's backing file — the
sanitized form (path separators replaced by `"_"`) when the key sanitizes
to a non-empty string, and `".json"` for the empty key — and it starts
with the prefix. Listing is therefore independent of insertion order, but
returns the caller's keys verbatim only when they are non-empty and
contain no path separator. -/
theorem listKeys_returns_sanitized_keys [DecidableEq V]
    (ws : List (String × V)) (pre k : String) :
    k ∈ fsListKeys (applyWrites ws) pre ↔
      (∃ w ∈ ws, stemOfJsonFile (sanitizeKey w.1) = k) ∧
      pyStartsWith k pre = true := by
  unfold fsListKeys applyWrites
  rw [List.mem_filter]
  constructor
  · rintro ⟨hk, hpre⟩
    refine ⟨?_, hpre⟩
    obtain ⟨s, hs, rfl⟩ := List.mem_map.mp hk
    have hmem := (mem_fst_writes ws [] s).mp hs
    simp only [List.map_nil, List.not_mem_nil, false_or] at hmem
    obtain ⟨w, hw, hsan⟩ := hmem
    exact ⟨w, hw, by rw [hsan]⟩
  · rintro ⟨⟨w, hw, hst⟩, hpre⟩
    refine ⟨?_, hpre⟩
    exact List.mem_map.mpr ⟨sanitizeKey w.1,
      (mem_fst_writes ws [] _).mpr (Or.inr ⟨w, hw, rfl⟩), hst⟩

/-! ### Optimistic locking in the manager (claim C6) -/

/-- C6: `update(key, value, version := N)` returns failure and leaves the
store untouched when no record exists or the stored version differs from
`N`; otherwise it succeeds and the stored record becomes the new value at
version `N + 1` (metadata carried over). -/
theorem update_optimistic_locking [DecidableEq V] (fs : Fs V) (key : String)
    (value : V) (N : Int) :
    ((fsGet fs key = none ∨ ∃ e, fsGet fs key = some e ∧ e.version ≠ N) →
        mgrUpdate fs key value (some N) = (fs, false)) ∧
    ∀ e, fsGet fs key = some e → e.version = N →
      (mgrUpdate fs key value (some N)).2 = true ∧
      fsGet (mgrUpdate fs key value (some N)).1 key =
        some ⟨key, value, N + 1, e.metadata⟩ := by
  constructor
  · rintro (hg | ⟨e, hg, hv⟩)
    · unfold mgrUpdate
      rw [hg]
      simp
    · unfold mgrUpdate
      rw [hg]
      simp [hv]
  · intro e hg hv
    subst hv
    unfold mgrUpdate
    rw [hg]
    simp only [beq_self_eq_true, Bool.not_true, Bool.false_eq_true, if_false]
    unfold fsSet
    rw [hg]
    simp only [add_sub_cancel_right, ne_eq, not_true_eq_false, if_false]
    exact ⟨by trivial, fsGet_writeFile_self fs key _⟩

/-- Witness for C6: a matching-version update on a one-record store. -/
theorem update_optimistic_locking_witness :
    (mgrUpdate (mgrSet ([] : Fs Nat) "k" 7 none) "k" 8 (some 1)).2 = true ∧
    fsGet (mgrUpdate (mgrSet ([] : Fs Nat) "k" 7 none) "k" 8 (some 1)).1 "k" =
      some ⟨"k", 8, 1 + 1, []⟩ :=
  (update_optimistic_locking (mgrSet ([] : Fs Nat) "k" 7 none) "k" 8 1).2
    ⟨"k", 7, 1, []⟩ (by decide) (by decide)

/-! ### Corrupt backing files (claim C9) -/

/-- C9: when a key's backing file exists but holds undecodable or
incomplete JSON, `get` reports the key absent, `delete` on the same key
still returns success, and any record written to the key passes the
version check as if no record existed. -/
theorem corrupt_file_semantics [DecidableEq V] (fs : Fs V) (key : String)
    (h : lookupFile fs (sanitizeKey key) = some FileContent.corrupt) :
    fsGet fs key = none ∧
    (fsDelete fs key).2 = true ∧
    ∀ s : StateRec V, s.key = key → (fsSet fs s).2 = true := by
  have hget : fsGet fs key = none := by
    unfold fsGet
    rw [h]
  refine ⟨hget, ?_, ?_⟩
  · unfold fsDelete
    rw [h]
  · intro s hk
    unfold fsSet
    rw [hk, hget]

/-- Witness for C9 on a directory holding one corrupt file. -/
theorem corrupt_file_semantics_witness :
    fsGet [("k", FileContent.corrupt (V := Nat))] "k" = none ∧
    (fsDelete [("k", FileContent.corrupt (V := Nat))] "k").2 = true ∧
    ∀ s : StateRec Nat, s.key = "k" →
      (fsSet [("k", FileContent.corrupt (V := Nat))] s).2 = true :=
  corrupt_file_semantics [("k", FileContent.corrupt)] "k" (by decide)

/-! ### Metadata on update versus set (claim C10) -/

/-- C10: on a key with an existing record, every successful manager
`update` stores the previous record's metadata unchanged, whereas a
manager `set` without a metadata argument stores the empty mapping. -/
theorem update_keeps_metadata_set_clears_it [DecidableEq V] (fs : Fs V)
    (key : String) (value : V) (ver : Option Int) (e : StateRec V)
    (hg : fsGet fs key = some e) :
    ((mgrUpdate fs key value ver).2 = true →
        fsGet (mgrUpdate fs key value ver).1 key =
          some ⟨key, value, e.version + 1, e.metadata⟩) ∧
    fsGet (mgrSet fs key value none) key = some ⟨key, value, e.version + 1, []⟩ := by
  constructor
  · intro hok
    unfold mgrUpdate at hok ⊢
    rw [hg] at hok ⊢
    cases ver with
    | none =>
      simp only [Bool.not_true, Bool.false_eq_true, if_false] at hok ⊢
      unfold fsSet
      rw [hg]
      simp only [add_sub_cancel_right, ne_eq, not_true_eq_false, if_false]
      exact fsGet_writeFile_self fs key _
    | some v =>
      by_cases hv : e.version = v
      · subst hv
        simp only [beq_self_eq_true, Bool.not_true, Bool.false_eq_true,
          if_false] at hok ⊢
        unfold fsSet
        rw [hg]
        simp only [add_sub_cancel_right, ne_eq, not_true_eq_false, if_false]
        exact fsGet_writeFile_self fs key _
      · exfalso
        simp only [hv] at hok
        simp [show (e.version == v) = false by simpa using hv] at hok
  · rw [mgrSet_eq_writeFile, hg]
    exact fsGet_writeFile_self fs key _

/-- Witness for C10 on a one-record store carrying nonempty metadata. -/
theorem update_keeps_metadata_witness :
    ((mgrUpdate [("k", FileContent.valid ⟨"k", (7 : Nat), 3, [("m", 1)]⟩)] "k" 9
        (some 3)).2 = true →
      fsGet (mgrUpdate [("k", FileContent.valid ⟨"k", (7 : Nat), 3, [("m", 1)]⟩)]
          "k" 9 (some 3)).1 "k" = some ⟨"k", 9, 3 + 1, [("m", 1)]⟩) ∧
    fsGet (mgrSet [("k", FileContent.valid ⟨"k", (7 : Nat), 3, [("m", 1)]⟩)] "k" 9
        none) "k" = some ⟨"k", 9, 3 + 1, []⟩ :=
  update_keeps_metadata_set_clears_it
    [("k", FileContent.valid ⟨"k", 7, 3, [("m", 1)]⟩)] "k" 9 (some 3)
    ⟨"k", 7, 3, [("m", 1)]⟩ (by decide)

end KimiSdk
